import Mathlib

/-!
Verification development for the comic-toolbox conversion pipeline
(`convertComic.py`).  Python strings are modelled as `List Char` (the
paths handled by the scripts are ASCII), Python byte strings as
`List Nat`, and the filesystem fragments each function touches as
explicit values.  Every definition is translated directly from the
source; comments cite the function it embeds.
-/

/-! ## Python string primitives -/

/-- ASCII model of `str.lower` on a single character (the paths and
extension literals compared by the scripts are ASCII). -/
def pyLowerChar (c : Char) : Char :=
  if 'A' ≤ c ∧ c ≤ 'Z' then Char.ofNat (c.toNat + 32) else c

/-- Model of Python `str.lower`. -/
def pyLower (s : List Char) : List Char := s.map pyLowerChar

/-- Worker for Python `str.replace` with a non-empty pattern: scans left
to right; on a match emits the replacement and skips the rest of the
match (`skip` counts characters of the current match still to be
consumed). -/
def pyRepAux (pat rep : List Char) : Nat → List Char → List Char
  | _, [] => []
  | Nat.succ n, _ :: cs => pyRepAux pat rep n cs
  | 0, c :: cs =>
    if pat.isPrefixOf (c :: cs) then rep ++ pyRepAux pat rep (pat.length - 1) cs
    else c :: pyRepAux pat rep 0 cs

/-- Model of Python `str.replace(pat, rep)` (replaces every
non-overlapping occurrence, left to right).  For the empty pattern,
Python inserts `rep` before every character and at the end. -/
def pyReplace (s pat rep : List Char) : List Char :=
  match pat with
  | [] => rep ++ s.flatMap (fun c => c :: rep)
  | _ :: _ => pyRepAux pat rep 0 s

/-- The maximal suffix of `s` containing no `sep`.  Used to model
Python `s.split(sep)[-1]` and `os.path.basename`. -/
def lastSegment (sep : Char) (s : List Char) : List Char :=
  (s.reverse.takeWhile (fun c => !decide (c = sep))).reverse

/-- Model of `image_path.split('.')[-1]` — the text after the last dot
(the whole string when there is no dot). -/
def pyLastExt (s : List Char) : List Char := lastSegment '.' s

/-- Model of `os.path.basename` — the text after the last `/`. -/
def pyBasename (s : List Char) : List Char := lastSegment '/' s

/-- Model of the root component of `os.path.splitext` on a base name:
split at the last dot, unless every character before that dot is itself
a dot (CPython keeps names like `.bashrc` whole). -/
def py_splitext_root (b : List Char) : List Char :=
  let extRev := b.reverse.takeWhile (fun c => !decide (c = '.'))
  if extRev.length = b.length then b
  else
    let root := b.take (b.length - extRev.length - 1)
    if root.all (fun c => decide (c = '.')) then b else root

/-- Model of Python `s.split(sep)` (always returns at least one piece;
a leading/trailing separator yields an empty piece). -/
def pySplit (sep : Char) : List Char → List (List Char)
  | [] => [[]]
  | c :: cs =>
    if c = sep then [] :: pySplit sep cs
    else
      match pySplit sep cs with
      | [] => [[c]]
      | h :: t => (c :: h) :: t

/-- Model of Python `sep.join(pieces)`. -/
def pyJoin (sep : Char) : List (List Char) → List Char
  | [] => []
  | [x] => x
  | x :: y :: t => x ++ sep :: pyJoin sep (y :: t)

/-! ## Filesystem fragment for the image transcoders

A file as the transcoders observe it: its byte size
(`os.path.getsize`) and the pixel dimensions PIL reports. -/

structure ImgFile where
  size : Nat
  width : Nat
  height : Nat
deriving DecidableEq

/-- The directory fragment a transcoder touches: an association list
from path to file. -/
abbrev FS := List (List Char × ImgFile)

/-- Look a path up (first match). -/
def fsGet : FS → List Char → Option ImgFile
  | [], _ => none
  | e :: rest, p => if e.1 = p then some e.2 else fsGet rest p

/-- Model of `os.remove` (also used to drop an overwritten entry). -/
def fsDel (fs : FS) (p : List Char) : FS :=
  fs.filter (fun e => !decide (e.1 = p))

/-- Model of writing (or overwriting) a file, as `image.save` does. -/
def fsSet (fs : FS) (p : List Char) (v : ImgFile) : FS :=
  (p, v) :: fsDel fs p

/-! ## Image transcoders (`convertComic.py` lines 147-217) -/

/-- `convertComic.py` lines 153-154: inside `convert_image_to_webp`,
`if image.width > 3500 or image.height > 3500:` the image is resized to
`(int(image.width/2), int(image.height/2))` (exact halving, floored;
Python's float halving is exact at image magnitudes). -/
def webp_resize_dims (w h : Nat) : Nat × Nat :=
  if 3500 < w ∨ 3500 < h then (w / 2, h / 2) else (w, h)

/-- `convert_image_to_webp` (lines 147-171).  `enc_size` abstracts the
byte size the webp encoder produces; `save_ok` abstracts whether
`image.save` succeeds (e.g. the target directory exists).  `none`
models the `except` path (the function prints and returns `False`,
touching nothing further).  The original size is read before saving;
the webp path is `image_path.replace(image_path.split('.')[-1], 'webp')`;
after saving, the original is removed when the webp is strictly
smaller, otherwise the webp is removed. -/
def convert_image_to_webp (fs : FS) (image_path : List Char)
    (enc_size : Nat) (save_ok : Bool) : Option FS :=
  match fsGet fs image_path with
  | none => none
  | some img =>
    let size_of_original := img.size
    let dims := webp_resize_dims img.width img.height
    let webp_path := pyReplace image_path (pyLastExt image_path) ("webp".data)
    if save_ok then
      let fs1 := fsSet fs webp_path { size := enc_size, width := dims.1, height := dims.2 }
      let size_of_webp := enc_size
      if size_of_webp < size_of_original then some (fsDel fs1 image_path)
      else some (fsDel fs1 webp_path)
    else none

/-- `convert_image_to_png` (lines 179-191).  `fmt` is PIL's
`image.format` (e.g. `JPEG` for both `.jpg` and `.jpeg` files); the
target path is `image_path.replace(image.format.lower(), 'png')` and
the original file is never removed by this function. -/
def convert_image_to_png (fs : FS) (image_path fmt : List Char)
    (enc_size : Nat) (save_ok : Bool) : Option FS :=
  match fsGet fs image_path with
  | none => none
  | some img =>
    if save_ok then
      let png_path := pyReplace image_path (pyLower fmt) ("png".data)
      some (fsSet fs png_path { size := enc_size, width := img.width, height := img.height })
    else none

/-- Line 209: `image.save(jpg_path, 'jpeg', quality=1)`. -/
def jpg_save_quality : Nat := 1

/-- `convert_image_to_jpg` (lines 199-217).  The target path is
`image_path.replace(image_path.split('.')[-1], 'jpeg')`; after a
successful save the original is removed unconditionally (no size
comparison). -/
def convert_image_to_jpg (fs : FS) (image_path : List Char)
    (enc_size : Nat) (save_ok : Bool) : Option FS :=
  match fsGet fs image_path with
  | none => none
  | some img =>
    let jpg_path := pyReplace image_path (pyLastExt image_path) ("jpeg".data)
    if save_ok then
      let fs1 := fsSet fs jpg_path { size := enc_size, width := img.width, height := img.height }
      some (fsDel fs1 image_path)
    else none

/-- Spec-side definition (for claim C7 only), following the spec's
words "a sibling file whose path replaces the source's extension with
'png'": everything up to and including the last dot, then `png`. -/
def spec_png_path (p : List Char) : List Char :=
  (p.reverse.dropWhile (fun c => !decide (c = '.'))).reverse ++ ("png".data)

/-! ## Comic-book file check (`convertComic.py` lines 65-66) -/

/-- The extension tuple of line 66. -/
def comic_book_endings : List (List Char) :=
  [(".cbz".data), (".cbr".data), (".zip".data), (".rar".data), (".cb7".data), (".7z".data)]

/-- `check_if_file_is_comic_book_file`:
`file.lower().endswith(('.cbz', '.cbr', '.zip', '.rar', '.cb7', '.7z')) and not file[0] == '.'`.
Python's `and` short-circuits, so `file[0]` is only read when the
suffix test succeeded (hence on a non-empty string); `head?` models
the index faithfully on the reachable inputs. -/
def check_if_file_is_comic_book_file (file : List Char) : Bool :=
  (comic_book_endings.any (fun suf => suf.isSuffixOf (pyLower file)))
    && !decide (file.head? = some '.')

/-! ## Format detection and the per-archive orchestrator
(`convertComic.py` lines 72-86 and 359-426) -/

/-- `determine_compression_type`: match the first bytes of the file
against the fixed signatures, in the dictionary's insertion order
(ZIP, RAR, 7Z); otherwise `"Unknown"`.  `header` is the 8-byte read. -/
def determine_compression_type (header : List Nat) : List Char :=
  if ([0x50, 0x4B] : List Nat).isPrefixOf header then ("ZIP".data)
  else if ([0x52, 0x61, 0x72, 0x21, 0x1A, 0x07, 0x00] : List Nat).isPrefixOf header then ("RAR".data)
  else if ([0x37, 0x7A, 0xBC, 0xAF, 0x27, 0x1C] : List Nat).isPrefixOf header then ("7Z".data)
  else ("Unknown".data)

/-- Observable outcome of one `convert_comic_book` call:
whether the scratch workspace (created on line 360, before anything
else) still exists when the function returns, whether an image
conversion traversal was dispatched, whether a
`compress_directory_to_comic_book_file_*` call was made, and the
Python return value (`some false` for the `return False` branches,
`none` for falling off the end). -/
structure ConvOutcome where
  workspaceExists : Bool
  transcodeRan : Bool
  buildAttempted : Bool
  returnValue : Option Bool
deriving DecidableEq

/-- `convert_comic_book` (lines 359-426), control flow only.
`header` drives `determine_compression_type`; `decompress_ok` is the
boolean result of the dispatched `decompress_*_file` call — the source
discards it (line 367 binds it to a never-read `status` for RAR), so
it must not influence the outcome; `build_ok` is likewise the
discarded result of the compress call (line 415-420).  The temp
directory is created first (line 360) and `delete_directory` runs only
on the fall-through path (line 425): the three `return False` branches
(lines 370-372, 387-389, 421-423) return with the workspace still on
disk. -/
def convert_comic_book (header : List Nat) (decompress_ok : Bool)
    (convert_image_file_type convert_extension : List Char) (build_ok : Bool) : ConvOutcome :=
  let ct := determine_compression_type header
  if ct = ("Unknown".data) then
    { workspaceExists := true, transcodeRan := false, buildAttempted := false,
      returnValue := some false }
  else
    -- the decompress_*_file call happens here; decompress_ok is ignored
    if convert_image_file_type = ("webp".data) ∨ convert_image_file_type = ("png".data)
        ∨ convert_image_file_type = ("jpg".data) ∨ convert_image_file_type = ("original".data) then
      let ran := !decide (convert_image_file_type = ("original".data))
      if convert_extension = ("cbz".data) ∨ convert_extension = ("cbr".data)
          ∨ convert_extension = ("cb7".data) then
        -- build dispatched (its build_ok result is ignored), then delete_directory
        { workspaceExists := false, transcodeRan := ran, buildAttempted := true,
          returnValue := none }
      else
        { workspaceExists := true, transcodeRan := ran, buildAttempted := false,
          returnValue := some false }
    else
      { workspaceExists := true, transcodeRan := false, buildAttempted := false,
        returnValue := some false }

/-! ## Archive build / extract (`convertComic.py` lines 95-138, 258-304)

A directory tree is a list of (relative path components, content
bytes); an archive is a list of (entry name components, content
bytes).  `extractall` materialises each entry at its name under the
destination, so extraction viewed relative to the destination is the
entry list itself. -/

abbrev FileTree := List (List (List Char) × List Nat)

abbrev Archive := List (List (List Char) × List Nat)

inductive ArchFormat where
  | cbz
  | cbr
  | cb7
deriving DecidableEq

/-- The three `compress_directory_to_comic_book_file_*` functions,
building the tree rooted at `root` (the scratch workspace path, as
components).
* cbz (lines 258-269): `zipfile` walk writes each file found at
  `root ++ p` under the entry name `os.path.relpath(file_path,
  directory)`, i.e. the path with the `root` prefix dropped.
* cbr (lines 277-288): `rarfile.RarFile(output, 'w')` raises —
  the rarfile library only supports reading (`mode='r'`) — so the
  `except` branch returns `False` and no archive is produced.
* cb7 (lines 296-304): `archive.writeall(directory, directory)` passes
  the directory itself as the `arcname` base, so every entry is named
  `directory ++ relative path`. -/
def build_archive : ArchFormat → List (List Char) → FileTree → Option Archive
  | ArchFormat.cbz, root, d => some (d.map (fun e => ((root ++ e.1).drop root.length, e.2)))
  | ArchFormat.cbr, _, _ => none
  | ArchFormat.cb7, root, d => some (d.map (fun e => (root ++ e.1, e.2)))

/-- `decompress_*_file` / `extractall` viewed relative to the
destination directory: each entry appears at its entry name. -/
def extract_archive (a : Archive) : FileTree := a

/-! ## Batch output path (`convertComic.py` lines 354-357, 391-408) -/

/-- `get_file_name_from_path` (lines 354-357):
`os.path.splitext(os.path.basename(path))[0]`. -/
def get_file_name_from_path (path : List Char) : List Char :=
  py_splitext_root (pyBasename path)

/-- The directory-mode output path computation of `convert_comic_book`
(lines 393-405).  `input_dir_abs` is `os.path.abspath(input_directory)`
(the batch root; `abspath` is modelled as the identity on an absolute,
normalised path).  The source appends `'/'`, string-replaces every
occurrence of it in `input` by `'/'`, splits on `'/'`, pops the file
name, rejoins, and concatenates
`output + input_path + '/' + file_name + '.' + convert_extension`. -/
def batch_output_file_path (input output input_dir_abs convert_extension : List Char) :
    List Char :=
  let input_directory := input_dir_abs ++ ['/']
  let input_path := pyReplace input input_directory ['/']
  let file_name := get_file_name_from_path input_path
  let split_path := pySplit '/' input_path
  let input_path2 := pyJoin '/' split_path.dropLast
  output ++ input_path2 ++ ['/'] ++ file_name ++ ['.'] ++ convert_extension

/-- Spec-side definition (for claim C8 only), following the spec's
words: output root, then the archive's directory path relative to the
batch input root, then the base name, then a dot and the target
extension. -/
def mirrored_output_path (output_root : List Char) (rel_dirs : List (List Char))
    (base ext : List Char) : List Char :=
  output_root ++ (rel_dirs.flatMap (fun d => '/' :: d)) ++ ['/'] ++ base ++ ['.'] ++ ext

/-! ## Directory walk (`convertComic.py` lines 324-333)

The tree under the walk root is a list of file paths, each a list of
path components (directories never explicitly listed; `os.walk` visits
the root first and then every directory that appears as a proper
prefix of some file). -/

abbrev WalkTree := List (List (List Char))

/-- Duplicate removal keeping first occurrences (auxiliary for the
directory enumeration of the `os.walk` model). -/
def dedupAux (seen : List (List (List Char))) :
    List (List (List Char)) → List (List (List Char))
  | [] => []
  | x :: xs => if x ∈ seen then dedupAux seen xs else x :: dedupAux (x :: seen) xs

/-- The directories `os.walk` visits: the root (first), then every
directory containing some file, top-down prefixes included. -/
def walk_dirs (fs : WalkTree) : List (List (List Char)) :=
  dedupAux [] ([] :: fs.flatMap (fun p => p.dropLast.inits))

/-- The files immediately inside directory `d`. -/
def files_in (fs : WalkTree) (d : List (List Char)) : List (List Char) :=
  fs.filterMap (fun p => if p.dropLast = d then p.getLast? else none)

/-- Model of `os.walk(directory)` as the sequence of
`(root, file_names)` pairs, the walk root itself first. -/
def os_walk (fs : WalkTree) : List (List (List Char) × List (List Char)) :=
  (walk_dirs fs).map (fun d => (d, files_in fs d))

/-- `parse_directory_for_files` (lines 324-333): iterate `os.walk`;
skip files whose name begins with a dot; `break` after the first
directory when `recursive` is false. -/
def parse_directory_for_files (fs : WalkTree) (recursive : Bool) :
    List (List (List Char)) :=
  (if recursive then os_walk fs else (os_walk fs).take 1).flatMap
    (fun pr => (pr.2.filter (fun n => !decide (n.head? = some '.'))).map
      (fun n => pr.1 ++ [n]))

/-! ## Helper lemmas: the filesystem fragment -/

theorem fsGet_fsDel_self (fs : FS) (p : List Char) : fsGet (fsDel fs p) p = none := by
  induction fs with
  | nil => rfl
  | cons e rest ih =>
    by_cases h : e.1 = p
    · simpa [fsDel, List.filter_cons, h] using ih
    · simpa [fsDel, List.filter_cons, h, fsGet] using ih

theorem fsGet_fsDel_ne (fs : FS) {p q : List Char} (h : q ≠ p) :
    fsGet (fsDel fs p) q = fsGet fs q := by
  induction fs with
  | nil => rfl
  | cons e rest ih =>
    by_cases he : e.1 = p
    · have hq : ¬ e.1 = q := fun hx => h (by rw [← hx, he])
      have h1 : fsDel (e :: rest) p = fsDel rest p := by
        simp [fsDel, List.filter_cons, he]
      have h2 : fsGet (e :: rest) q = fsGet rest q := by
        simp [fsGet, hq]
      rw [h1, h2]
      exact ih
    · have h1 : fsDel (e :: rest) p = e :: fsDel rest p := by
        simp [fsDel, List.filter_cons, he]
      by_cases hq : e.1 = q
      · rw [h1]; simp [fsGet, hq]
      · rw [h1]
        show fsGet (e :: fsDel rest p) q = fsGet (e :: rest) q
        simp only [fsGet, hq, if_false]
        exact ih

theorem fsGet_fsSet_self (fs : FS) (p : List Char) (v : ImgFile) :
    fsGet (fsSet fs p v) p = some v := by
  simp [fsSet, fsGet]

theorem fsGet_fsSet_ne (fs : FS) {p q : List Char} (v : ImgFile) (h : q ≠ p) :
    fsGet (fsSet fs p v) q = fsGet fs q := by
  have hp : ¬ p = q := fun hx => h hx.symm
  simp [fsSet, fsGet, hp, fsGet_fsDel_ne fs h]

/-! ## Helper lemmas: Python `str.replace` -/

theorem pyRepAux_nil (pat rep : List Char) (n : Nat) : pyRepAux pat rep n [] = [] := by
  cases n <;> rfl

theorem pyRepAux_skip (pat rep : List Char) :
    ∀ (l : List Char) (n : Nat), pyRepAux pat rep n l = pyRepAux pat rep 0 (l.drop n) := by
  intro l
  induction l with
  | nil => intro n; simp [pyRepAux_nil]
  | cons c cs ih =>
    intro n
    cases n with
    | zero => rfl
    | succ m =>
      show pyRepAux pat rep m cs = pyRepAux pat rep 0 ((c :: cs).drop (m + 1))
      simpa using ih m

theorem pyRepAux_not_infix (pat rep : List Char) :
    ∀ (s : List Char), ¬ pat <:+: s → pyRepAux pat rep 0 s = s := by
  intro s
  induction s with
  | nil => intro _; rfl
  | cons c cs ih =>
    intro h
    have hpre : pat.isPrefixOf (c :: cs) = false := by
      rw [Bool.eq_false_iff]
      intro hp
      exact h ((List.isPrefixOf_iff_prefix.mp hp).isInfix)
    have hcs : ¬ pat <:+: cs := fun hi => h (List.infix_cons hi)
    simp [pyRepAux, hpre, ih hcs]

theorem pyRepAux_head_match (pat rep rest : List Char) (hpat : pat ≠ []) :
    pyRepAux pat rep 0 (pat ++ rest) = rep ++ pyRepAux pat rep 0 rest := by
  match pat, hpat with
  | p :: pt, _ =>
    have hpre : (p :: pt).isPrefixOf (p :: (pt ++ rest)) = true :=
      List.isPrefixOf_iff_prefix.mpr (by exact List.prefix_append _ _)
    show pyRepAux (p :: pt) rep 0 (p :: (pt ++ rest)) = rep ++ pyRepAux (p :: pt) rep 0 rest
    rw [show pyRepAux (p :: pt) rep 0 (p :: (pt ++ rest))
        = if (p :: pt).isPrefixOf (p :: (pt ++ rest)) = true then
            rep ++ pyRepAux (p :: pt) rep ((p :: pt).length - 1) (pt ++ rest)
          else p :: pyRepAux (p :: pt) rep 0 (pt ++ rest) from rfl]
    rw [if_pos hpre, pyRepAux_skip]
    simp [List.drop_left]

theorem pyRepAux_dot_ext (rep ext : List Char) (h1 : ext ≠ []) (h2 : '.' ∉ ext) :
    pyRepAux ext rep 0 ('.' :: ext) = '.' :: rep := by
  have hpre : ext.isPrefixOf ('.' :: ext) = false := by
    rw [Bool.eq_false_iff]
    intro hp
    obtain ⟨t, ht⟩ := List.isPrefixOf_iff_prefix.mp hp
    cases ext with
    | nil => exact h1 rfl
    | cons e es =>
      have he : e = '.' := by
        have := congrArg List.head? ht
        simpa using this
      exact h2 (he ▸ List.mem_cons_self e es)
  have hrest : pyRepAux ext rep 0 ext = rep := by
    have := pyRepAux_head_match ext rep [] h1
    simpa [pyRepAux_nil] using this
  simp [pyRepAux, hpre, hrest]

theorem pyRepAux_ext_suffix (rep : List Char) :
    ∀ (n : Nat) (s₀ ext : List Char), s₀.length ≤ n → ext ≠ [] → '.' ∉ ext →
      ∃ X, pyRepAux ext rep 0 (s₀ ++ '.' :: ext) = X ++ '.' :: rep := by
  intro n
  induction n with
  | zero =>
    intro s₀ ext hlen h1 h2
    have hnil : s₀ = [] := List.eq_nil_of_length_eq_zero (Nat.le_zero.mp hlen)
    subst hnil
    exact ⟨[], by simpa using pyRepAux_dot_ext rep ext h1 h2⟩
  | succ n ih =>
    intro s₀ ext hlen h1 h2
    cases s₀ with
    | nil => exact ⟨[], by simpa using pyRepAux_dot_ext rep ext h1 h2⟩
    | cons c rest =>
      have hlen2 : rest.length ≤ n := by
        simp only [List.length_cons] at hlen
        omega
      by_cases hm : ext.isPrefixOf (c :: (rest ++ '.' :: ext)) = true
      · have hpre : ext <+: ((c :: rest) ++ '.' :: ext) := List.isPrefixOf_iff_prefix.mp hm
        have hlb : ext.length ≤ rest.length + 1 := by
          by_contra hgt
          push_neg at hgt
          have htake : ext = ((c :: rest) ++ '.' :: ext).take ext.length :=
            List.prefix_iff_eq_take.mp hpre
          rw [List.take_append_eq_append_take] at htake
          have hfull : ((c :: rest) : List Char).take ext.length = c :: rest :=
            List.take_of_length_le (by simp only [List.length_cons]; omega)
          have hpos : 0 < ext.length - (c :: rest).length := by
            simp only [List.length_cons]
            omega
          have hmeq : ext.length - (c :: rest).length
              = (ext.length - (c :: rest).length - 1) + 1 :=
            (Nat.succ_pred_eq_of_pos hpos).symm
          rw [hfull, hmeq, List.take_succ_cons] at htake
          have hdot : '.' ∈ ext := by
            rw [htake]
            exact List.mem_append_right _ (List.mem_cons_self _ _)
          exact h2 hdot
        have step1 : pyRepAux ext rep 0 ((c :: rest) ++ '.' :: ext)
            = rep ++ pyRepAux ext rep 0 ((rest.drop (ext.length - 1)) ++ '.' :: ext) := by
          show pyRepAux ext rep 0 (c :: (rest ++ '.' :: ext)) = _
          rw [show pyRepAux ext rep 0 (c :: (rest ++ '.' :: ext))
              = if ext.isPrefixOf (c :: (rest ++ '.' :: ext)) = true then
                  rep ++ pyRepAux ext rep (ext.length - 1) (rest ++ '.' :: ext)
                else c :: pyRepAux ext rep 0 (rest ++ '.' :: ext) from rfl]
          rw [if_pos hm, pyRepAux_skip,
            List.drop_append_of_le_length (by omega)]
        obtain ⟨X, hX⟩ := ih (rest.drop (ext.length - 1)) ext
          (by rw [List.length_drop]; omega) h1 h2
        refine ⟨rep ++ X, ?_⟩
        rw [step1, hX, List.append_assoc]
      · have step1 : pyRepAux ext rep 0 ((c :: rest) ++ '.' :: ext)
            = c :: pyRepAux ext rep 0 (rest ++ '.' :: ext) := by
          show pyRepAux ext rep 0 (c :: (rest ++ '.' :: ext)) = _
          rw [show pyRepAux ext rep 0 (c :: (rest ++ '.' :: ext))
              = if ext.isPrefixOf (c :: (rest ++ '.' :: ext)) = true then
                  rep ++ pyRepAux ext rep (ext.length - 1) (rest ++ '.' :: ext)
                else c :: pyRepAux ext rep 0 (rest ++ '.' :: ext) from rfl]
          rw [if_neg hm]
        obtain ⟨X, hX⟩ := ih rest ext hlen2 h1 h2
        exact ⟨c :: X, by rw [step1, hX]; rfl⟩

/-! ## Helper lemmas: `lastSegment` -/

theorem takeWhile_all_append (p : Char → Bool) :
    ∀ (l₁ : List Char) (x : Char) (l₂ : List Char),
      (∀ y ∈ l₁, p y = true) → p x = false → (l₁ ++ x :: l₂).takeWhile p = l₁ := by
  intro l₁
  induction l₁ with
  | nil => intro x l₂ _ hx; simp [List.takeWhile_cons, hx]
  | cons a l ih =>
    intro x l₂ hall hx
    have ha : p a = true := hall a (List.mem_cons_self a l)
    simp [List.takeWhile_cons, ha, ih x l₂ (fun y hy => hall y (List.mem_cons_of_mem a hy)) hx]

theorem lastSegment_append (sep : Char) (l₁ l₂ : List Char) (h : sep ∉ l₂) :
    lastSegment sep (l₁ ++ sep :: l₂) = l₂ := by
  unfold lastSegment
  rw [List.reverse_append, List.reverse_cons, List.append_assoc, List.singleton_append]
  rw [takeWhile_all_append _ l₂.reverse sep l₁.reverse
    (fun y hy => by
      have : y ∈ l₂ := List.mem_reverse.mp hy
      simp [show ¬ y = sep from fun he => h (he ▸ this)])
    (by simp)]
  exact List.reverse_reverse l₂

theorem lastSegment_no_sep (sep : Char) (s : List Char) (h : sep ∉ s) :
    lastSegment sep s = s := by
  unfold lastSegment
  rw [List.takeWhile_eq_self_iff.mpr
    (fun x hx => by
      have : x ∈ s := List.mem_reverse.mp hx
      simp [show ¬ x = sep from fun he => h (he ▸ this)])]
  exact List.reverse_reverse s

theorem pyLastExt_append (s₀ ext : List Char) (h : '.' ∉ ext) :
    pyLastExt (s₀ ++ '.' :: ext) = ext :=
  lastSegment_append '.' s₀ ext h

/-! ## Claim C1: workspace cleanup -/

/-- C1 counterexample: on a file with an unrecognized compression
signature (first bytes `00 00`), `convert_comic_book` takes the
`return False` branch of lines 370-372 before ever reaching
`delete_directory` (line 425), so the scratch workspace created on
line 360 still exists when the function returns — the claim that the
workspace is always deleted is false. -/
theorem c1_counterexample :
    determine_compression_type [0, 0] = ("Unknown".data) ∧
    (convert_comic_book [0, 0] true ("webp".data) ("cbz".data) true).workspaceExists = true := by
  decide

/-- C1 (amended): the scratch workspace is deleted exactly when
`convert_comic_book` runs to completion, i.e. when the compression
signature is recognized, the image conversion type is one of
webp/png/jpg/original, and the target extension is one of
cbz/cbr/cb7 — regardless of whether decompression or the archive
build succeed.  On the three early-return failures (unknown
compression type, unsupported image conversion type, unsupported
target extension) the workspace is left on disk. -/
theorem c1_workspace_deleted_iff (header : List Nat) (decompress_ok : Bool)
    (img_type ext : List Char) (build_ok : Bool) :
    (convert_comic_book header decompress_ok img_type ext build_ok).workspaceExists = false ↔
      (determine_compression_type header ≠ ("Unknown".data) ∧
        (img_type = ("webp".data) ∨ img_type = ("png".data) ∨ img_type = ("jpg".data)
          ∨ img_type = ("original".data)) ∧
        (ext = ("cbz".data) ∨ ext = ("cbr".data) ∨ ext = ("cb7".data))) := by
  unfold convert_comic_book
  by_cases h1 : determine_compression_type header = ("Unknown".data)
  · simp [h1]
  · by_cases h2 : img_type = ("webp".data) ∨ img_type = ("png".data)
        ∨ img_type = ("jpg".data) ∨ img_type = ("original".data)
    · by_cases h3 : ext = ("cbz".data) ∨ ext = ("cbr".data) ∨ ext = ("cb7".data)
      · simp [h1, h2, h3]
      · simp [h1, h2, h3]
    · simp [h1, h2]

/-- C1 witness: a ZIP-signature archive converted to cbz/webp reaches
the cleanup line, so its workspace is gone on return. -/
theorem c1_witness :
    (convert_comic_book [0x50, 0x4B] true ("webp".data) ("cbz".data) true).workspaceExists
      = false :=
  (c1_workspace_deleted_iff [0x50, 0x4B] true ("webp".data) ("cbz".data) true).mpr
    ⟨by decide, Or.inl rfl, Or.inl rfl⟩

/-! ## Claim C2: behaviour on decompression failure -/

/-- C2 counterexample: for a ZIP-signature archive whose decompression
fails (`decompress_ok = false`), the conversion does NOT end in a
failed state: the boolean result of `decompress_zip_file` is discarded
(lines 364-369), so the image traversal still runs, an output archive
is still built, and the function falls through returning `None` — not
`False`. -/
theorem c2_counterexample :
    determine_compression_type [0x50, 0x4B] = ("ZIP".data) ∧
    ¬ ((convert_comic_book [0x50, 0x4B] false ("webp".data) ("cbz".data) true).returnValue
          = some false ∧
        (convert_comic_book [0x50, 0x4B] false ("webp".data) ("cbz".data) true).transcodeRan
          = false ∧
        (convert_comic_book [0x50, 0x4B] false ("webp".data) ("cbz".data) true).buildAttempted
          = false) := by
  decide

/-- C2 (amended): when decompression fails on a recognized archive
with supported image type and target extension, `convert_comic_book`
ignores the failure entirely: the outcome is identical to the
successful-decompression outcome — the build step is still dispatched,
the workspace is still deleted, and the function returns `None`
(no failure signal).  Only the printed error differs. -/
theorem c2_decompress_failure_ignored (header : List Nat) (img_type ext : List Char)
    (build_ok : Bool)
    (hfmt : determine_compression_type header ≠ ("Unknown".data))
    (himg : img_type = ("webp".data) ∨ img_type = ("png".data) ∨ img_type = ("jpg".data)
      ∨ img_type = ("original".data))
    (hext : ext = ("cbz".data) ∨ ext = ("cbr".data) ∨ ext = ("cb7".data)) :
    (convert_comic_book header false img_type ext build_ok).workspaceExists = false ∧
    (convert_comic_book header false img_type ext build_ok).buildAttempted = true ∧
    (convert_comic_book header false img_type ext build_ok).returnValue = none ∧
    convert_comic_book header false img_type ext build_ok
      = convert_comic_book header true img_type ext build_ok := by
  refine ⟨?_, ?_, ?_, rfl⟩ <;> simp [convert_comic_book, hfmt, himg, hext]

/-- C2 witness at a concrete ZIP/webp/cbz instance. -/
theorem c2_witness :
    (convert_comic_book [0x50, 0x4B] false ("webp".data) ("cbz".data) true).workspaceExists
        = false ∧
      (convert_comic_book [0x50, 0x4B] false ("webp".data) ("cbz".data) true).buildAttempted
        = true ∧
      (convert_comic_book [0x50, 0x4B] false ("webp".data) ("cbz".data) true).returnValue
        = none ∧
      convert_comic_book [0x50, 0x4B] false ("webp".data) ("cbz".data) true
        = convert_comic_book [0x50, 0x4B] true ("webp".data) ("cbz".data) true :=
  c2_decompress_failure_ignored [0x50, 0x4B] ("webp".data) ("cbz".data) true
    (by decide) (Or.inl rfl) (Or.inl rfl)

/-! ## Claim C3: build/extract round trip -/

/-- C3 counterexample: for the cb7 format the claim fails.
`compress_directory_to_comic_book_file_cb7` calls
`archive.writeall(directory, directory)`, so each entry name is
prefixed with the scratch directory's own path; extracting the built
archive yields `tmp/a.png`, not `a.png`. -/
theorem c3_counterexample :
    ¬ ∃ a, build_archive ArchFormat.cb7 [("tmp".data)] [([("a.png".data)], [1])] = some a ∧
      ∀ e, e ∈ extract_archive a ↔ e ∈ [([("a.png".data)], ([1] : List Nat))] := by
  rintro ⟨a, ha, h⟩
  have ha' : a = [([("tmp".data), ("a.png".data)], [1])] := by
    simpa [build_archive] using ha.symm
  subst ha'
  have hm := (h ([("a.png".data)], [1])).mpr (by simp)
  exact absurd hm (by decide)

/-- C3 (amended): the round trip holds for cbz — zip entries are the
paths relative to the built directory, so extraction reproduces the
tree exactly.  For cbr, `rarfile.RarFile(output, 'w')` always raises
(the rarfile library is read-only), the exception is swallowed and no
archive is produced.  For cb7, entries carry the source directory's
own path as a prefix, so extraction reproduces the tree shifted under
that path rather than at its original relative paths. -/
theorem c3_roundtrip_amended :
    (∀ (root : List (List Char)) (d : FileTree),
      ∃ a, build_archive ArchFormat.cbz root d = some a ∧ extract_archive a = d) ∧
    (∀ (root : List (List Char)) (d : FileTree), build_archive ArchFormat.cbr root d = none) ∧
    (∀ (root : List (List Char)) (d : FileTree),
      ∃ a, build_archive ArchFormat.cb7 root d = some a ∧
        extract_archive a = d.map (fun e => (root ++ e.1, e.2))) := by
  refine ⟨fun root d => ⟨_, rfl, ?_⟩, fun root d => rfl, fun root d => ⟨_, rfl, rfl⟩⟩
  simp [extract_archive, List.drop_left]

/-- C3 witness: the cbz round trip at a concrete two-file tree. -/
theorem c3_witness :
    ∃ a, build_archive ArchFormat.cbz [("tmp".data)]
        [([("a.png".data)], [1]), ([("sub".data), ("b.png".data)], [2, 3])] = some a ∧
      extract_archive a
        = [([("a.png".data)], [1]), ([("sub".data), ("b.png".data)], [2, 3])] :=
  c3_roundtrip_amended.1 [("tmp".data)]
    [([("a.png".data)], [1]), ([("sub".data), ("b.png".data)], [2, 3])]

/-! ## Claim C4: webp keep-smaller policy -/

/-- C4 counterexample: `convert_image_to_webp` on a file already named
with a `webp` extension computes a webp path equal to the source path
(`str.replace` finds the pattern `webp` and replaces it with itself),
overwrites the file in place, and then the final `os.remove` deletes
the only file: the call completes without exception yet NEITHER of the
two files remains, so "exactly one remains" is false. -/
theorem c4_counterexample :
    pyReplace ("page.webp".data) (pyLastExt ("page.webp".data)) ("webp".data)
      = ("page.webp".data) ∧
    convert_image_to_webp [(("page.webp".data), ⟨100, 10, 10⟩)] ("page.webp".data) 50 true
      = some [] ∧
    fsGet [] ("page.webp".data) = none := by
  decide

/-- C4 (amended): provided the computed webp path differs from the
source path (which holds for every source whose extension is not
already `webp`), a completed `convert_image_to_webp` leaves exactly
one of the two files on disk: the encoded webp when its byte size is
strictly smaller than the original's, otherwise the original (ties
keep the original). -/
theorem c4_webp_keep_smaller (fs : FS) (image_path : List Char) (img : ImgFile)
    (enc_size : Nat) (fs' : FS)
    (hget : fsGet fs image_path = some img)
    (hne : pyReplace image_path (pyLastExt image_path) ("webp".data) ≠ image_path)
    (hrun : convert_image_to_webp fs image_path enc_size true = some fs') :
    (enc_size < img.size →
      fsGet fs' (pyReplace image_path (pyLastExt image_path) ("webp".data))
        = some { size := enc_size, width := (webp_resize_dims img.width img.height).1,
                 height := (webp_resize_dims img.width img.height).2 } ∧
      fsGet fs' image_path = none) ∧
    (¬ enc_size < img.size →
      fsGet fs' image_path = some img ∧
      fsGet fs' (pyReplace image_path (pyLastExt image_path) ("webp".data)) = none) := by
  unfold convert_image_to_webp at hrun
  rw [hget] at hrun
  simp only [if_true] at hrun
  constructor
  · intro hlt
    rw [if_pos hlt] at hrun
    injection hrun with h
    subst h
    exact ⟨by rw [fsGet_fsDel_ne _ hne]; exact fsGet_fsSet_self _ _ _,
      fsGet_fsDel_self _ _⟩
  · intro hlt
    rw [if_neg hlt] at hrun
    injection hrun with h
    subst h
    refine ⟨?_, fsGet_fsDel_self _ _⟩
    rw [fsGet_fsDel_ne _ (Ne.symm hne), fsGet_fsSet_ne _ _ (Ne.symm hne)]
    exact hget

/-- C4 witness: a 100-byte `a.png` encoding to a 50-byte webp keeps
only `a.webp`. -/
theorem c4_witness :
    fsGet [(("a.webp".data), ⟨50, 20, 20⟩)]
        (pyReplace ("a.png".data) (pyLastExt ("a.png".data)) ("webp".data))
      = some { size := 50, width := (webp_resize_dims 20 20).1,
               height := (webp_resize_dims 20 20).2 } ∧
    fsGet [(("a.webp".data), ⟨50, 20, 20⟩)] ("a.png".data) = none :=
  (c4_webp_keep_smaller [(("a.png".data), ⟨100, 20, 20⟩)] ("a.png".data) ⟨100, 20, 20⟩ 50
    [(("a.webp".data), ⟨50, 20, 20⟩)] (by decide) (by decide) (by decide)).1 (by decide)

/-! ## Claim C5: webp resize policy -/

/-- C5: `convert_image_to_webp` never resizes an image whose width and
height are both at most 3500; when either dimension exceeds 3500, both
output dimensions are exactly halved (floor). -/
theorem c5_webp_resize (w h : Nat) :
    (w ≤ 3500 → h ≤ 3500 → webp_resize_dims w h = (w, h)) ∧
    (3500 < w ∨ 3500 < h → webp_resize_dims w h = (w / 2, h / 2)) := by
  constructor
  · intro hw hh
    have : ¬ (3500 < w ∨ 3500 < h) := by omega
    simp [webp_resize_dims, this]
  · intro hor
    simp [webp_resize_dims, hor]

/-- C5 witness: a 2000x2000 image is untouched; a 4000x1000 image
becomes 2000x500. -/
theorem c5_witness :
    webp_resize_dims 2000 2000 = (2000, 2000) ∧ webp_resize_dims 4000 1000 = (2000, 500) :=
  ⟨(c5_webp_resize 2000 2000).1 (by decide) (by decide),
   (c5_webp_resize 4000 1000).2 (Or.inl (by decide))⟩

/-! ## Claim C6: jpg always-replace policy -/

/-- C6 counterexample: on a file already carrying the `jpeg` extension
the computed jpeg path equals the source path, the save overwrites the
file in place and the unconditional `os.remove(image_path)` then
deletes it: the call completes without exception, yet zero `.jpeg`
files remain — not exactly one. -/
theorem c6_counterexample :
    pyReplace ("a.jpeg".data) (pyLastExt ("a.jpeg".data)) ("jpeg".data) = ("a.jpeg".data) ∧
    convert_image_to_jpg [(("a.jpeg".data), ⟨100, 10, 10⟩)] ("a.jpeg".data) 50 true
      = some [] ∧
    fsGet [] ("a.jpeg".data) = none := by
  decide

/-- C6 (amended): for a source path with a proper extension (a
non-empty dot-free suffix after a dot) different from `jpeg`, a
completed `convert_image_to_jpg` re-encodes at quality 1, always
deletes the original regardless of the resulting size, and leaves
exactly one file of the pair — the encoded one, whose path ends in
`.jpeg`. -/
theorem c6_jpg_always_replaces (fs : FS) (s₀ ext : List Char) (img : ImgFile)
    (enc_size : Nat) (fs' : FS)
    (hext : ext ≠ []) (hdot : '.' ∉ ext) (hjpeg : ext ≠ ("jpeg".data))
    (hget : fsGet fs (s₀ ++ '.' :: ext) = some img)
    (hrun : convert_image_to_jpg fs (s₀ ++ '.' :: ext) enc_size true = some fs') :
    jpg_save_quality = 1 ∧
    fsGet fs' (s₀ ++ '.' :: ext) = none ∧
    fsGet fs' (pyReplace (s₀ ++ '.' :: ext) (pyLastExt (s₀ ++ '.' :: ext)) ("jpeg".data))
      = some { size := enc_size, width := img.width, height := img.height } ∧
    (".jpeg".data) <:+ pyReplace (s₀ ++ '.' :: ext) (pyLastExt (s₀ ++ '.' :: ext)) ("jpeg".data) := by
  have hlast : pyLastExt (s₀ ++ '.' :: ext) = ext := pyLastExt_append s₀ ext hdot
  obtain ⟨X, hX⟩ : ∃ X, pyReplace (s₀ ++ '.' :: ext) (pyLastExt (s₀ ++ '.' :: ext)) ("jpeg".data)
      = X ++ '.' :: ("jpeg".data) := by
    rw [hlast]
    cases ext with
    | nil => exact absurd rfl hext
    | cons e es =>
      show ∃ X, pyRepAux (e :: es) ("jpeg".data) 0 (s₀ ++ '.' :: (e :: es))
          = X ++ '.' :: ("jpeg".data)
      exact pyRepAux_ext_suffix ("jpeg".data) s₀.length s₀ (e :: es) le_rfl (by simp) hdot
  have hsuffix : (".jpeg".data) <:+
      pyReplace (s₀ ++ '.' :: ext) (pyLastExt (s₀ ++ '.' :: ext)) ("jpeg".data) := by
    rw [hX]
    exact ⟨X, rfl⟩
  have hne : pyReplace (s₀ ++ '.' :: ext) (pyLastExt (s₀ ++ '.' :: ext)) ("jpeg".data)
      ≠ (s₀ ++ '.' :: ext) := by
    intro he
    apply hjpeg
    have h1 : pyLastExt (pyReplace (s₀ ++ '.' :: ext) (pyLastExt (s₀ ++ '.' :: ext)) ("jpeg".data))
        = ("jpeg".data) := by
      rw [hX]
      exact pyLastExt_append X ("jpeg".data) (by decide)
    rw [he, hlast] at h1
    exact h1
  unfold convert_image_to_jpg at hrun
  rw [hget] at hrun
  simp only [if_true] at hrun
  injection hrun with h
  subst h
  refine ⟨rfl, fsGet_fsDel_self _ _, ?_, hsuffix⟩
  rw [fsGet_fsDel_ne _ hne]
  exact fsGet_fsSet_self _ _ _

/-- C6 witness: converting `a.png` (100 bytes) leaves only `a.jpeg`,
even though the encoded file (120 bytes) is larger. -/
theorem c6_witness :
    jpg_save_quality = 1 ∧
    fsGet [(("a.jpeg".data), ⟨120, 10, 10⟩)] (("a".data) ++ '.' :: ("png".data)) = none ∧
    fsGet [(("a.jpeg".data), ⟨120, 10, 10⟩)]
        (pyReplace (("a".data) ++ '.' :: ("png".data))
          (pyLastExt (("a".data) ++ '.' :: ("png".data))) ("jpeg".data))
      = some { size := 120, width := 10, height := 10 } ∧
    (".jpeg".data) <:+ pyReplace (("a".data) ++ '.' :: ("png".data))
        (pyLastExt (("a".data) ++ '.' :: ("png".data))) ("jpeg".data) :=
  c6_jpg_always_replaces [((("a".data) ++ '.' :: ("png".data)), ⟨100, 10, 10⟩)]
    ("a".data) ("png".data) ⟨100, 10, 10⟩ 120 [(("a.jpeg".data), ⟨120, 10, 10⟩)]
    (by decide) (by decide) (by decide) (by decide) (by decide)

/-! ## Claim C7: png conversion path and retention -/

/-- C7 counterexample: for a `.jpg` file PIL reports format `JPEG`, so
`image_path.replace(image.format.lower(), 'png')` finds no occurrence
of `jpeg` in `a.jpg` and returns the path unchanged: the image is
re-encoded as PNG over the original file itself.  No file at the
extension-replaced sibling path `a.png` exists afterwards, and the
original file's content is replaced rather than kept. -/
theorem c7_counterexample :
    pyReplace ("a.jpg".data) (pyLower ("JPEG".data)) ("png".data) = ("a.jpg".data) ∧
    convert_image_to_png [(("a.jpg".data), ⟨100, 10, 10⟩)] ("a.jpg".data) ("JPEG".data) 50 true
      = some [(("a.jpg".data), ⟨50, 10, 10⟩)] ∧
    spec_png_path ("a.jpg".data) = ("a.png".data) ∧
    fsGet [(("a.jpg".data), (⟨50, 10, 10⟩ : ImgFile))] ("a.png".data) = none ∧
    ¬ fsGet [(("a.jpg".data), (⟨50, 10, 10⟩ : ImgFile))] ("a.jpg".data)
        = fsGet [(("a.jpg".data), (⟨100, 10, 10⟩ : ImgFile))] ("a.jpg".data) := by
  decide

/-- C7 (amended): a completed `convert_image_to_png` writes the PNG
re-encoding at `image_path.replace(image.format.lower(), 'png')` — the
format name, not the file extension, is what gets substituted (every
occurrence of it).  When that computed path differs from the source
path, the new file is created and the original remains untouched; when
the format name does not occur in the path (e.g. `.jpg` sources, whose
format is `jpeg`), the computed path equals the source path and the
original is overwritten in place. -/
theorem c7_png_keeps_both (fs : FS) (image_path fmt : List Char) (img : ImgFile)
    (enc_size : Nat) (fs' : FS)
    (hget : fsGet fs image_path = some img)
    (hrun : convert_image_to_png fs image_path fmt enc_size true = some fs') :
    fsGet fs' (pyReplace image_path (pyLower fmt) ("png".data))
      = some { size := enc_size, width := img.width, height := img.height } ∧
    (pyReplace image_path (pyLower fmt) ("png".data) ≠ image_path →
      fsGet fs' image_path = some img) := by
  unfold convert_image_to_png at hrun
  rw [hget] at hrun
  simp only [if_true] at hrun
  injection hrun with h
  subst h
  refine ⟨fsGet_fsSet_self _ _ _, fun hne => ?_⟩
  rw [fsGet_fsSet_ne _ _ (Ne.symm hne)]
  exact hget

/-- C7 witness: converting a `.bmp` file (format `BMP`) creates the
sibling `a.png` and keeps the original `a.bmp`. -/
theorem c7_witness :
    fsGet [(("a.png".data), ⟨50, 10, 10⟩), (("a.bmp".data), ⟨100, 10, 10⟩)]
        (pyReplace ("a.bmp".data) (pyLower ("BMP".data)) ("png".data))
      = some { size := 50, width := 10, height := 10 } ∧
    fsGet [(("a.png".data), ⟨50, 10, 10⟩), (("a.bmp".data), ⟨100, 10, 10⟩)] ("a.bmp".data)
      = some ⟨100, 10, 10⟩ :=
  ⟨(c7_png_keeps_both [(("a.bmp".data), ⟨100, 10, 10⟩)] ("a.bmp".data) ("BMP".data)
      ⟨100, 10, 10⟩ 50 [(("a.png".data), ⟨50, 10, 10⟩), (("a.bmp".data), ⟨100, 10, 10⟩)]
      (by decide) (by decide)).1,
   (c7_png_keeps_both [(("a.bmp".data), ⟨100, 10, 10⟩)] ("a.bmp".data) ("BMP".data)
      ⟨100, 10, 10⟩ 50 [(("a.png".data), ⟨50, 10, 10⟩), (("a.bmp".data), ⟨100, 10, 10⟩)]
      (by decide) (by decide)).2 (by decide)⟩

/-! ## Helper lemmas: split and join -/

theorem pyReplace_of_ne_nil (s pat rep : List Char) (h : pat ≠ []) :
    pyReplace s pat rep = pyRepAux pat rep 0 s := by
  cases pat with
  | nil => exact absurd rfl h
  | cons c cs => rfl

theorem pySplit_no_sep (sep : Char) : ∀ (x : List Char), sep ∉ x → pySplit sep x = [x] := by
  intro x
  induction x with
  | nil => intro _; rfl
  | cons c cs ih =>
    intro h
    have hc : ¬ c = sep := fun he => h (he ▸ List.mem_cons_self c cs)
    rw [show pySplit sep (c :: cs) = if c = sep then [] :: pySplit sep cs else
        (match pySplit sep cs with | [] => [[c]] | h :: t => (c :: h) :: t) from rfl]
    rw [if_neg hc, ih (fun hm => h (List.mem_cons_of_mem c hm))]

theorem pySplit_append_sep (sep : Char) :
    ∀ (x t : List Char), sep ∉ x → pySplit sep (x ++ sep :: t) = x :: pySplit sep t := by
  intro x
  induction x with
  | nil => intro t _; simp [pySplit]
  | cons c cs ih =>
    intro t h
    have hc : ¬ c = sep := fun he => h (he ▸ List.mem_cons_self c cs)
    rw [show pySplit sep ((c :: cs) ++ sep :: t) = if c = sep then [] :: pySplit sep (cs ++ sep :: t)
        else (match pySplit sep (cs ++ sep :: t) with | [] => [[c]] | h :: t => (c :: h) :: t)
        from rfl]
    rw [if_neg hc, ih t (fun hm => h (List.mem_cons_of_mem c hm))]

theorem pySplit_pyJoin (sep : Char) :
    ∀ (L : List (List Char)), L ≠ [] → (∀ x ∈ L, sep ∉ x) →
      pySplit sep (pyJoin sep L) = L := by
  intro L
  induction L with
  | nil => intro h _; exact absurd rfl h
  | cons x ys ih =>
    intro _ hall
    cases ys with
    | nil => exact pySplit_no_sep sep x (hall x (List.mem_cons_self x []))
    | cons y t =>
      rw [show pyJoin sep (x :: y :: t) = x ++ sep :: pyJoin sep (y :: t) from rfl]
      rw [pySplit_append_sep sep x _ (hall x (List.mem_cons_self x (y :: t)))]
      rw [ih (by simp) (fun z hz => hall z (List.mem_cons_of_mem x hz))]

theorem flatMap_sep_cons (sep : Char) :
    ∀ (L : List (List Char)), L ≠ [] →
      L.flatMap (fun d => sep :: d) = sep :: pyJoin sep L := by
  intro L
  induction L with
  | nil => intro h; exact absurd rfl h
  | cons x ys ih =>
    intro _
    cases ys with
    | nil => simp [pyJoin]
    | cons y t =>
      rw [show (x :: y :: t).flatMap (fun d => sep :: d)
          = (sep :: x) ++ (y :: t).flatMap (fun d => sep :: d) from rfl]
      rw [ih (by simp)]
      rw [show pyJoin sep (x :: y :: t) = x ++ sep :: pyJoin sep (y :: t) from rfl]
      simp

theorem pyJoin_nil_cons (sep : Char) (L : List (List Char)) :
    pyJoin sep ([] :: L) = L.flatMap (fun d => sep :: d) := by
  cases L with
  | nil => rfl
  | cons y t =>
    rw [show pyJoin sep ([] :: y :: t) = [] ++ sep :: pyJoin sep (y :: t) from rfl]
    rw [flatMap_sep_cons sep (y :: t) (by simp)]
    rfl

theorem pyJoin_append_single (sep : Char) :
    ∀ (L : List (List Char)) (x : List Char), L ≠ [] →
      pyJoin sep (L ++ [x]) = pyJoin sep L ++ sep :: x := by
  intro L
  induction L with
  | nil => intro x h; exact absurd rfl h
  | cons y t ih =>
    intro x _
    cases t with
    | nil => rfl
    | cons z s =>
      rw [show pyJoin sep ((y :: z :: s) ++ [x]) = y ++ sep :: pyJoin sep ((z :: s) ++ [x])
          from rfl]
      rw [ih x (by simp)]
      rw [show pyJoin sep (y :: z :: s) = y ++ sep :: pyJoin sep (z :: s) from rfl]
      simp

/-! ## Claim C8: batch output path mirroring -/

/-- C8 counterexample: the output path is computed by string-replacing
every occurrence of `abspath(input_root) + '/'` in the archive path
(line 397), so an archive at `/in/x/in/a.cbz` under batch root `/in`
loses its `in` subdirectory: the code produces `/out/x/a.cbz` where
the mirrored hierarchy is `/out/x/in/a.cbz`. -/
theorem c8_counterexample :
    ("/in".data) ++ '/' :: pyJoin '/' [("x".data), ("in".data), ("a.cbz".data)]
      = ("/in/x/in/a.cbz".data) ∧
    py_splitext_root ("a.cbz".data) = ("a".data) ∧
    batch_output_file_path ("/in/x/in/a.cbz".data) ("/out".data) ("/in".data) ("cbz".data)
      = ("/out/x/a.cbz".data) ∧
    mirrored_output_path ("/out".data) [("x".data), ("in".data)] ("a".data) ("cbz".data)
      = ("/out/x/in/a.cbz".data) ∧
    ("/out/x/a.cbz".data) ≠ ("/out/x/in/a.cbz".data) := by
  decide

/-- C8 (amended): the mirroring formula holds whenever the slash-ended
batch-root prefix occurs exactly once in the archive path, i.e. it
does not reoccur within the archive's root-relative remainder (and the
root is given in the absolute spelling `abspath` would produce).  Then
the output archive path is the batch output root, plus the archive's
directory path relative to the batch input root, plus its base name,
a dot, and the target extension. -/
theorem c8_output_path_mirror (input_root out ext file : List Char) (dirs : List (List Char))
    (hfile : '/' ∉ file)
    (hdirs : ∀ d ∈ dirs, '/' ∉ d)
    (hroot : ¬ (input_root ++ ['/']) <:+: pyJoin '/' (dirs ++ [file])) :
    batch_output_file_path (input_root ++ '/' :: pyJoin '/' (dirs ++ [file])) out input_root ext
      = mirrored_output_path out dirs (py_splitext_root file) ext := by
  have hne_pat : (input_root ++ ['/'] : List Char) ≠ [] := by simp
  have hsplit : input_root ++ '/' :: pyJoin '/' (dirs ++ [file])
      = (input_root ++ ['/']) ++ pyJoin '/' (dirs ++ [file]) := by simp
  have hip : pyReplace (input_root ++ '/' :: pyJoin '/' (dirs ++ [file]))
      (input_root ++ ['/']) (['/']) = '/' :: pyJoin '/' (dirs ++ [file]) := by
    rw [pyReplace_of_ne_nil _ _ _ hne_pat, hsplit, pyRepAux_head_match _ _ _ hne_pat,
      pyRepAux_not_infix _ _ _ hroot]
    rfl
  have hsfree : ∀ x ∈ dirs ++ [file], '/' ∉ x := by
    intro x hx
    rcases List.mem_append.mp hx with h | h
    · exact hdirs x h
    · rw [List.mem_singleton.mp h]; exact hfile
  have hsplit2 : pySplit '/' (pyJoin '/' (dirs ++ [file])) = dirs ++ [file] :=
    pySplit_pyJoin '/' (dirs ++ [file]) (by simp) hsfree
  have hbase : pyBasename ('/' :: pyJoin '/' (dirs ++ [file])) = file := by
    cases dirs with
    | nil => exact lastSegment_append '/' [] (pyJoin '/' [file]) hfile
    | cons d ds =>
      have hj : pyJoin '/' ((d :: ds) ++ [file]) = pyJoin '/' (d :: ds) ++ '/' :: file :=
        pyJoin_append_single '/' (d :: ds) file (by simp)
      rw [hj]
      show pyBasename (('/' :: pyJoin '/' (d :: ds)) ++ '/' :: file) = file
      exact lastSegment_append '/' _ file hfile
  simp only [batch_output_file_path, get_file_name_from_path, mirrored_output_path]
  rw [hip]
  rw [show pySplit '/' ('/' :: pyJoin '/' (dirs ++ [file]))
      = [] :: pySplit '/' (pyJoin '/' (dirs ++ [file])) by simp [pySplit]]
  rw [hsplit2]
  rw [show ([] :: (dirs ++ [file])) = (([] :: dirs) ++ [file]) from rfl]
  rw [List.dropLast_concat, pyJoin_nil_cons, hbase]

/-- C8 witness: an archive at `/in/x/a.cbz` under batch root `/in`
with output root `/out` lands at `/out/x/a.cbz`. -/
theorem c8_witness :
    batch_output_file_path (("/in".data) ++ '/' :: pyJoin '/' [("x".data), ("a.cbz".data)])
        ("/out".data) ("/in".data) ("cbz".data)
      = mirrored_output_path ("/out".data) [("x".data)] (py_splitext_root ("a.cbz".data))
          ("cbz".data) :=
  c8_output_path_mirror ("/in".data) ("/out".data) ("cbz".data) ("a.cbz".data) [("x".data)]
    (by decide) (by decide) (by decide)

/-! ## Claim C9: directory walk -/

theorem dedupAux_mem (x : List (List Char)) :
    ∀ (l seen : List (List (List Char))), x ∈ dedupAux seen l ↔ (x ∈ l ∧ x ∉ seen) := by
  intro l
  induction l with
  | nil => intro seen; simp [dedupAux]
  | cons y ys ih =>
    intro seen
    by_cases hy : y ∈ seen
    · rw [show dedupAux seen (y :: ys) = dedupAux seen ys by simp [dedupAux, hy]]
      rw [ih seen]
      constructor
      · rintro ⟨hx, hs⟩
        exact ⟨List.mem_cons_of_mem _ hx, hs⟩
      · rintro ⟨hx, hs⟩
        cases List.mem_cons.mp hx with
        | inl he => exact absurd (he ▸ hy) hs
        | inr hm => exact ⟨hm, hs⟩
    · rw [show dedupAux seen (y :: ys) = y :: dedupAux (y :: seen) ys by simp [dedupAux, hy]]
      constructor
      · intro hx
        cases List.mem_cons.mp hx with
        | inl he =>
          subst he
          exact ⟨List.mem_cons_self _ _, hy⟩
        | inr hm =>
          obtain ⟨h1, h2⟩ := (ih (y :: seen)).mp hm
          exact ⟨List.mem_cons_of_mem _ h1, fun hs => h2 (List.mem_cons_of_mem _ hs)⟩
      · rintro ⟨hx, hs⟩
        cases List.mem_cons.mp hx with
        | inl he => exact he ▸ List.mem_cons_self _ _
        | inr hm =>
          by_cases hxy : x = y
          · exact hxy ▸ List.mem_cons_self _ _
          · refine List.mem_cons_of_mem _ ((ih (y :: seen)).mpr ⟨hm, fun hsy => ?_⟩)
            cases List.mem_cons.mp hsy with
            | inl h => exact hxy h
            | inr h => exact hs h

/-- C9: `parse_directory_for_files` with `recursive = false` returns
only immediate children of the root (every returned path has exactly
one component, so zero files from nesting depth two or more); with
`recursive = true` it descends fully (every file of the tree whose
base name is not hidden is returned); and in both modes every returned
file's name does not begin with a dot. -/
theorem c9_walk (fs : WalkTree) :
    (∀ p ∈ parse_directory_for_files fs false, p.length = 1) ∧
    (∀ p ∈ fs, ∀ (d : List (List Char)) (nm : List Char), p = d ++ [nm] →
      ¬ nm.head? = some '.' → p ∈ parse_directory_for_files fs true) ∧
    (∀ (recursive : Bool), ∀ p ∈ parse_directory_for_files fs recursive,
      ∃ d nm, p = d ++ [nm] ∧ ¬ nm.head? = some '.') := by
  refine ⟨?_, ?_, ?_⟩
  · intro p hp
    have hwd : walk_dirs fs
        = [] :: dedupAux [[]] (fs.flatMap (fun q => q.dropLast.inits)) := by
      simp [walk_dirs, dedupAux]
    rw [show parse_directory_for_files fs false
        = ((os_walk fs).take 1).flatMap
          (fun pr => (pr.2.filter (fun n => !decide (n.head? = some '.'))).map
            (fun n => pr.1 ++ [n])) from rfl] at hp
    rw [os_walk, hwd] at hp
    simp only [List.map_cons, List.take_succ_cons, List.take_zero] at hp
    simp only [List.flatMap_cons, List.flatMap_nil, List.append_nil] at hp
    obtain ⟨nm, _, heq⟩ := List.mem_map.mp hp
    rw [← heq]
    rfl
  · intro p hp d nm hpd hnm
    have hdl : p.dropLast = d := by rw [hpd]; exact List.dropLast_concat
    have hd : d ∈ walk_dirs fs := by
      rw [walk_dirs]
      refine (dedupAux_mem d _ []).mpr ⟨?_, by simp⟩
      refine List.mem_cons_of_mem _ (List.mem_flatMap.mpr ⟨p, hp, ?_⟩)
      rw [hdl]
      exact (List.mem_inits d d).mpr (List.prefix_refl d)
    rw [show parse_directory_for_files fs true
        = (os_walk fs).flatMap
          (fun pr => (pr.2.filter (fun n => !decide (n.head? = some '.'))).map
            (fun n => pr.1 ++ [n])) from rfl]
    refine List.mem_flatMap.mpr ⟨(d, files_in fs d), ?_, ?_⟩
    · exact List.mem_map.mpr ⟨d, hd, rfl⟩
    · refine List.mem_map.mpr ⟨nm, ?_, hpd.symm⟩
      refine List.mem_filter.mpr ⟨?_, by simp [hnm]⟩
      refine List.mem_filterMap.mpr ⟨p, hp, ?_⟩
      rw [hdl, if_pos rfl, hpd]
      exact List.getLast?_concat d
  · intro recursive p hp
    rw [parse_directory_for_files] at hp
    obtain ⟨pr, _, hmem⟩ := List.mem_flatMap.mp hp
    obtain ⟨nm, hnm, hwe⟩ := List.mem_map.mp hmem
    obtain ⟨_, hfilter⟩ := List.mem_filter.mp hnm
    exact ⟨pr.1, nm, hwe.symm, by simpa using hfilter⟩

/-- C9 witness: in a tree with `sub/f.png` and `g.png`, the recursive
walk returns the nested file, and the non-recursive walk's entry
`g.png` has depth one. -/
theorem c9_witness :
    [("sub".data), ("f.png".data)] ∈ parse_directory_for_files
        [[("sub".data), ("f.png".data)], [("g.png".data)]] true ∧
    ([("g.png".data)] : List (List Char)).length = 1 :=
  ⟨(c9_walk [[("sub".data), ("f.png".data)], [("g.png".data)]]).2.1
      [("sub".data), ("f.png".data)] (by decide) [("sub".data)] ("f.png".data) rfl (by decide),
   (c9_walk [[("sub".data), ("f.png".data)], [("g.png".data)]]).1
      [("g.png".data)] (by decide)⟩

/-! ## Claim C10: comic-book file classification -/

/-- C10: `check_if_file_is_comic_book_file` returns true exactly when
the path ends case-insensitively in one of
`.cbz/.cbr/.zip/.rar/.cb7/.7z` and the first character of the entire
path string is not a dot; consequently every path underneath a batch
input root spelled with a leading dot (such as `./comics`) is
classified as non-comic, whatever its base name and extension. -/
theorem c10_comic_check :
    (∀ file : List Char,
      check_if_file_is_comic_book_file file = true ↔
        ((∃ suf ∈ comic_book_endings, suf <:+ pyLower file) ∧ ¬ file.head? = some '.')) ∧
    (∀ root rest : List Char, root.head? = some '.' →
      check_if_file_is_comic_book_file (root ++ rest) = false) := by
  have h1 : ∀ file : List Char,
      check_if_file_is_comic_book_file file = true ↔
        ((∃ suf ∈ comic_book_endings, suf <:+ pyLower file) ∧ ¬ file.head? = some '.') := by
    intro file
    rw [show check_if_file_is_comic_book_file file
        = ((comic_book_endings.any (fun suf => suf.isSuffixOf (pyLower file)))
            && !decide (file.head? = some '.')) from rfl]
    rw [Bool.and_eq_true, List.any_eq_true]
    constructor
    · rintro ⟨⟨suf, hm, hs⟩, hh⟩
      exact ⟨⟨suf, hm, List.isSuffixOf_iff_suffix.mp hs⟩, by simpa using hh⟩
    · rintro ⟨⟨suf, hm, hs⟩, hh⟩
      exact ⟨⟨suf, hm, List.isSuffixOf_iff_suffix.mpr hs⟩, by simpa using hh⟩
  refine ⟨h1, fun root rest hhead => ?_⟩
  cases root with
  | nil => exact absurd hhead (by simp)
  | cons c r =>
    have hc : c = '.' := by simpa using hhead
    rw [Bool.eq_false_iff]
    intro htrue
    exact ((h1 ((c :: r) ++ rest)).mp htrue).2 (by simp [hc])

/-- C10 witness: `./comics/Vol1/a.cbz` is rejected although its base
name is not hidden and its extension matches; `comics/a.CBZ` is
accepted case-insensitively. -/
theorem c10_witness :
    check_if_file_is_comic_book_file (("./comics".data) ++ ("/Vol1/a.cbz".data)) = false ∧
    check_if_file_is_comic_book_file ("comics/a.CBZ".data) = true :=
  ⟨c10_comic_check.2 ("./comics".data) ("/Vol1/a.cbz".data) (by decide),
   (c10_comic_check.1 ("comics/a.CBZ".data)).mpr
     ⟨⟨(".cbz".data), by decide, by decide⟩, by decide⟩⟩
